import Mathlib

/-!
Shallow embedding of the spread EPUB parser core (src/rust/src: types.rs,
tokenizer.rs, epub.rs).

Rust strings are modelled as lists of characters (`Str`).  The Rust code
slices UTF-8 strings at byte offsets, so byte lengths are modelled
explicitly (`byteLen`, `takeBytes`); a slice whose end does not fall on a
character boundary is a Rust panic, modelled as `Option.none`.  Counters
are modelled as `Nat` (the Rust `u32`/`usize` arithmetic involved panics
on overflow rather than wrapping, and all inputs of interest stay far
below `2^32`).

Unicode-dependent primitives of the Rust standard library
(`char::is_alphabetic`, `char::is_alphanumeric`, `str::to_lowercase`,
whitespace trimming) are modelled exactly on the character repertoire
this development touches: ASCII plus the Latin-1 supplement letters.
-/

abbrev Str := List Char

/-- Model of Rust `char::is_alphabetic`, exact on ASCII and on the
Latin-1 supplement (letters U+00C0-U+00FF minus the two operators
U+00D7 and U+00F7). -/
def isAlphabetic (c : Char) : Bool :=
  (decide ('a' ≤ c ∧ c ≤ 'z')) || (decide ('A' ≤ c ∧ c ≤ 'Z')) ||
    ((decide ('\xC0' ≤ c ∧ c ≤ '\xFF')) &&
      !(decide (c = '\xD7')) && !(decide (c = '\xF7')))

/-- Model of Rust `char::is_alphanumeric` on the same repertoire
(letters as above, plus the ASCII digits). -/
def isAlphanumericCh (c : Char) : Bool :=
  isAlphabetic c || c.isDigit

/-- The character class counted by the tokenizer for length buckets:
`c.is_alphanumeric() || c == '\'' || c == '-'` (tokenizer.rs). -/
def isWordChar (c : Char) : Bool :=
  isAlphanumericCh c || c = '\'' || c = '-'

/-- Whitespace test used for `split_whitespace` and `str::trim`. -/
def isWhitespaceChar (c : Char) : Bool :=
  c.isWhitespace

/-- Character-wise model of Rust `str::to_lowercase`, exact on ASCII and
on the Latin-1 supplement (U+00C0-U+00DE minus U+00D7 map to their
lowercase forms 0x20 higher; everything else in the repertoire is
already caseless or lowercase). -/
def lowerChar (c : Char) : Char :=
  if ('A' ≤ c ∧ c ≤ 'Z') then Char.ofNat (c.toNat + 32)
  else if (('\xC0' ≤ c ∧ c ≤ '\xDE') ∧ c ≠ '\xD7') then Char.ofNat (c.toNat + 32)
  else c

def lowerStr (s : Str) : Str := s.map lowerChar

/-- UTF-8 byte length of a string, the quantity Rust's `str::len` and all
byte-offset slicing in the source operate on. -/
def byteLen : Str → Nat
  | [] => 0
  | c :: cs => c.utf8Size + byteLen cs

/-- Take the first `n` UTF-8 bytes of a string, as Rust `&s[..n]` /
`&s[n..]` do.  Returns the two sides of the cut, or `none` when byte
`n` is not a character boundary (the Rust slicing panic). -/
def takeBytes : Nat → Str → Option (Str × Str)
  | 0, s => some ([], s)
  | _ + 1, [] => none
  | n + 1, c :: cs =>
    if c.utf8Size ≤ n + 1 then
      match takeBytes (n + 1 - c.utf8Size) cs with
      | some (a, b) => some (c :: a, b)
      | none => none
    else none

/-! ## types.rs -/

/-- `LengthBucket` (types.rs): length class for adaptive timing. -/
inductive LengthBucket where
  | short
  | medium
  | long
  | veryLong
deriving DecidableEq, Repr

/-- `LengthBucket::from_length` (types.rs). -/
def LengthBucket.fromLength (len : Nat) : LengthBucket :=
  if len ≤ 4 then .short
  else if len ≤ 8 then .medium
  else if len ≤ 12 then .long
  else .veryLong

/-- `Punctuation` (types.rs). -/
inductive Punctuation where
  | none
  | comma
  | period
  | paragraph
deriving DecidableEq, Repr

/-- `Punctuation::from_char` (types.rs). -/
def Punctuation.fromChar (c : Char) : Punctuation :=
  if c = '.' ∨ c = '!' ∨ c = '?' then .period
  else if c = ',' ∨ c = ';' ∨ c = ':' then .comma
  else .none

/-- `Word` (types.rs). -/
structure Word where
  text : Str
  lengthBucket : LengthBucket
  followingPunct : Punctuation
deriving DecidableEq, Repr

/-- A 4-slot histogram, the model of the Rust `[u32; 4]` arrays. -/
structure Counts4 where
  s0 : Nat
  s1 : Nat
  s2 : Nat
  s3 : Nat
deriving DecidableEq, Repr

def Counts4.zero : Counts4 := ⟨0, 0, 0, 0⟩

def Counts4.sum (x : Counts4) : Nat := x.s0 + x.s1 + x.s2 + x.s3

def Counts4.add (x y : Counts4) : Counts4 :=
  ⟨x.s0 + y.s0, x.s1 + y.s1, x.s2 + y.s2, x.s3 + y.s3⟩

/-- `stats.length_counts[word.length_bucket as usize] += 1`: the slot
selected by the bucket's discriminant is incremented. -/
def Counts4.bumpLength (x : Counts4) : LengthBucket → Counts4
  | .short => { x with s0 := x.s0 + 1 }
  | .medium => { x with s1 := x.s1 + 1 }
  | .long => { x with s2 := x.s2 + 1 }
  | .veryLong => { x with s3 := x.s3 + 1 }

/-- `stats.punct_counts[word.following_punct as usize] += 1`. -/
def Counts4.bumpPunct (x : Counts4) : Punctuation → Counts4
  | .none => { x with s0 := x.s0 + 1 }
  | .comma => { x with s1 := x.s1 + 1 }
  | .period => { x with s2 := x.s2 + 1 }
  | .paragraph => { x with s3 := x.s3 + 1 }

/-- `ChapterStats` (types.rs). -/
structure ChapterStats where
  wordCount : Nat
  lengthCounts : Counts4
  punctCounts : Counts4
deriving DecidableEq, Repr

/-- `ChapterStats::default()`. -/
def ChapterStats.default : ChapterStats := ⟨0, .zero, .zero⟩

/-- `ChapterStats::from_words` (types.rs): `word_count` is set to the
list length, then the single loop bumps both histograms per word. -/
def ChapterStats.fromWords (ws : List Word) : ChapterStats :=
  ws.foldl
    (fun s w =>
      { s with
        lengthCounts := s.lengthCounts.bumpLength w.lengthBucket
        punctCounts := s.punctCounts.bumpPunct w.followingPunct })
    { ChapterStats.default with wordCount := ws.length }

/-- `ChapterStats::merge` (types.rs). -/
def ChapterStats.merge (a b : ChapterStats) : ChapterStats :=
  ⟨a.wordCount + b.wordCount, a.lengthCounts.add b.lengthCounts,
    a.punctCounts.add b.punctCounts⟩

/-- `Chapter` (types.rs). -/
structure Chapter where
  index : Nat
  title : Str
  words : List Word
  stats : ChapterStats
deriving DecidableEq, Repr

/-- `BookMetadata` (types.rs). -/
structure BookMetadata where
  title : Str
  author : Option Str
deriving DecidableEq, Repr

/-- `BookStats` (types.rs). -/
structure BookStats where
  totalWords : Nat
  aggregated : ChapterStats
deriving DecidableEq, Repr

/-- `BookStats::from_chapters` (types.rs). -/
def BookStats.fromChapters (chs : List Chapter) : BookStats :=
  let aggregated := chs.foldl (fun a c => a.merge c.stats) ChapterStats.default
  ⟨aggregated.wordCount, aggregated⟩

/-- `Book` (types.rs). -/
structure Book where
  metadata : BookMetadata
  chapters : List Chapter
  stats : BookStats
deriving DecidableEq, Repr

/-! ## tokenizer.rs -/

/-- `MAX_CHUNK_CHARS` (tokenizer.rs): the fixed middle-chunk byte limit. -/
def MAX_CHUNK_CHARS : Nat := 15

/-- `MIN_CHUNK_CHARS` (tokenizer.rs). -/
def MIN_CHUNK_CHARS : Nat := 3

/-- `MIN_SPLIT_LENGTH` (tokenizer.rs). -/
def MIN_SPLIT_LENGTH : Nat := 13

/-- Modelled from the spec: `DEFAULT_MAX_CHUNK_CHARS`, the fixed default
chunk limit that `parse_epub` passes to `parse_epub_with_config`.  The
constant is referenced by epub.rs but its definition is not under src/;
spec section 6 fixes the convenience default at 13 characters. -/
def DEFAULT_MAX_CHUNK_CHARS : Nat := 13

/-- `PREFIXES` (tokenizer.rs), in source order (longest first). -/
def PREFIXES : List Str :=
  ["counter", "extra", "hyper", "inter", "micro", "multi", "super", "trans",
   "ultra", "under", "anti", "auto", "mono", "over", "poly", "post", "semi",
   "tele", "dis", "mid", "mis", "non", "out", "pre", "pro", "sub", "tri",
   "de", "il", "im", "in", "ir", "re", "un"].map String.toList

/-- `SUFFIXES` (tokenizer.rs), in source order (longest first). -/
def SUFFIXES : List Str :=
  ["ization", "isation", "ational", "ative", "itive", "ical", "ious", "eous",
   "tion", "sion", "ness", "ment", "able", "ible", "less", "ence", "ance",
   "ful", "ous", "ive", "ial", "ing", "ity", "ety", "ize", "ise", "ify",
   "ent", "ant", "al", "ed", "er", "ly", "ty"].map String.toList

/-- The middle-cutting loop of `split_long_word`: cut `s` into
consecutive pieces of `max` bytes (`&middle[pos..(pos + max).min(len)]`),
the last piece holding whatever remains.  `none` models the slicing
panic when byte `pos + max` is not a character boundary.  The fuel is
the list length, which suffices whenever `1 ≤ max`. -/
def chunkMiddleAux (max : Nat) : Nat → Str → Option (List Str)
  | _, [] => some []
  | 0, _ :: _ => none
  | fuel + 1, c :: cs =>
    if byteLen (c :: cs) ≤ max then some [c :: cs]
    else
      match takeBytes max (c :: cs) with
      | none => none
      | some (a, b) =>
        match chunkMiddleAux max fuel b with
        | none => none
        | some r => some (a :: r)

def chunkMiddle (max : Nat) (s : Str) : Option (List Str) :=
  chunkMiddleAux max s.length s

/-- Hyphenation of the middle pieces, mirroring the `formatted`
computation in `split_long_word`: `isFirst` tells whether no leading
chunk was emitted before the loop, `hasSfx` whether a trailing suffix
chunk will follow.  A piece is last exactly when
`pos + max >= middle.len()`. -/
def formatPieces (isFirst hasSfx : Bool) (pieces : List Str) : List Str :=
  pieces.enum.map fun pr =>
    let first := isFirst && pr.1 == 0
    let last := pr.1 == pieces.length - 1
    if first && last && !hasSfx then pr.2
    else if first then pr.2 ++ ['-']
    else if last && !hasSfx then '-' :: pr.2
    else '-' :: (pr.2 ++ ['-'])

/-- The "try to extract prefix" step of `split_long_word`: the first
table entry that the lowercased clean form starts with, subject to
`remaining.len() > prefix.len() + MIN_CHUNK_CHARS`, is cut off (at its
byte length) and emitted with a trailing hyphen; `is_first` stays true
only when no leading chunk was emitted. -/
def pfxStage (clean cleanLower : Str) : Option (List Str × Str × Bool) :=
  match PREFIXES.find? (fun p =>
      p.isPrefixOf cleanLower && decide (byteLen p + MIN_CHUNK_CHARS < byteLen clean)) with
  | none => some ([], clean, true)
  | some p =>
    match takeBytes (byteLen p) clean with
    | none => none
    | some (pre, rest) => some ([pre ++ ['-']], rest, false)

/-- The "try to extract suffix" step of `split_long_word`: the first
table entry the lowercased remainder ends with, subject to
`remaining.len() > suffix.len() + MIN_CHUNK_CHARS`, is cut off the tail
(at its byte length) and remembered, hyphen-marked, for emission after
the middle chunks. -/
def sfxStage (remaining : Str) : Option (Str × Option Str) :=
  match SUFFIXES.find? (fun s =>
      s.isSuffixOf (lowerStr remaining) && decide (byteLen s + MIN_CHUNK_CHARS < byteLen remaining)) with
  | none => some (remaining, none)
  | some s =>
    match takeBytes (byteLen remaining - byteLen s) remaining with
    | none => none
    | some (mid, suf) => some (mid, some ('-' :: suf))

/-- Modelled from the spec: `split_long_word` with the chunk limit as a
parameter, the form used by the configurable pipeline
(`create_chapter_with_config`, referenced by epub.rs but not under
src/; spec sections 4.3 and 6).  Instantiated at `MAX_CHUNK_CHARS` it is
exactly `split_long_word` of tokenizer.rs, translated clause by clause;
`none` models the byte-slicing panic. -/
def splitLongWordCfg (maxChunk : Nat) (w : Str) : Option (List Str) :=
  let clean := w.filter isAlphabetic
  if byteLen clean < MIN_SPLIT_LENGTH then some [w]
  else
    match pfxStage clean (lowerStr clean) with
    | Option.none => Option.none
    | some (chunks1, remaining, isFirst) =>
      match sfxStage remaining with
      | Option.none => Option.none
      | some (middle, sfxChunk) =>
        match chunkMiddle maxChunk middle with
        | Option.none => Option.none
        | some pieces =>
          let chunks := chunks1 ++ formatPieces isFirst sfxChunk.isSome pieces ++
            sfxChunk.toList
          if chunks.length ≤ 1 then some [w] else some chunks

/-- `split_long_word` (tokenizer.rs), with its fixed `MAX_CHUNK_CHARS`. -/
def splitLongWord (w : Str) : Option (List Str) :=
  splitLongWordCfg MAX_CHUNK_CHARS w

/-- The word-construction loop of `tokenize`: each chunk carries its own
clean-character length bucket, and only the chunk at index
`chunk_count - 1` carries the token's trailing punctuation. -/
def mkWords (punct : Punctuation) (chunks : List Str) : List Word :=
  chunks.enum.map fun pr =>
    { text := pr.2
      lengthBucket := LengthBucket.fromLength (pr.2.filter isWordChar).length
      followingPunct := if pr.1 = chunks.length - 1 then punct else Punctuation.none }

/-- The per-token body of `tokenize` (tokenizer.rs), parametrized by the
chunk limit.  `some []` models a `continue`, `none` the slicing panic. -/
def processRawCfg (maxChunk : Nat) (raw : Str) : Option (List Word) :=
  if raw = [] then some []
  else if (raw.filter isWordChar).length = 0 then some []
  else
    let punct := match raw.getLast? with
      | some c => Punctuation.fromChar c
      | Option.none => Punctuation.none
    match splitLongWordCfg maxChunk raw with
    | Option.none => Option.none
    | some chunks => some (mkWords punct chunks)

/-- The per-token body of `tokenize` at the source's fixed limit. -/
def processRaw (raw : Str) : Option (List Word) :=
  processRawCfg MAX_CHUNK_CHARS raw

/-- Rust `str::split_whitespace`: maximal runs of non-whitespace, empty
tokens discarded.  `cur` accumulates the current token reversed. -/
def splitWhitespaceAux (cur : Str) : Str → List Str
  | [] => if cur = [] then [] else [cur.reverse]
  | c :: cs =>
    if isWhitespaceChar c then
      if cur = [] then splitWhitespaceAux [] cs
      else cur.reverse :: splitWhitespaceAux [] cs
    else splitWhitespaceAux (c :: cur) cs

def splitWhitespace (s : Str) : List Str := splitWhitespaceAux [] s

/-- `tokenize` (tokenizer.rs), parametrized by the chunk limit. -/
def tokenizeCfg (maxChunk : Nat) (text : Str) : Option (List Word) :=
  match (splitWhitespace text).mapM (processRawCfg maxChunk) with
  | some l => some l.flatten
  | Option.none => Option.none

/-- `tokenize` (tokenizer.rs) at the source's fixed limit. -/
def tokenize (text : Str) : Option (List Word) :=
  tokenizeCfg MAX_CHUNK_CHARS text

/-- The per-paragraph tail of `tokenize_paragraphs` (tokenizer.rs): all
words but the last are kept as they are; the last word's punctuation is
upgraded to `Paragraph` when the paragraph is not the final one
(`p_idx < para_count - 1`) and the word carried no punctuation. -/
def markParagraph (pIdx paraCount : Nat) (ws : List Word) : List Word :=
  match ws.getLast? with
  | Option.none => []
  | some lw =>
    let lw' :=
      if pIdx < paraCount - 1 ∧ lw.followingPunct = Punctuation.none then
        { lw with followingPunct := Punctuation.paragraph }
      else lw
    ws.dropLast ++ [lw']

/-- `tokenize_paragraphs` (tokenizer.rs), parametrized by the chunk
limit; paragraphs that tokenize to no words contribute nothing. -/
def tokenizeParagraphsCfg (maxChunk : Nat) (ps : List Str) : Option (List Word) :=
  match ps.enum.mapM (fun pr =>
      match tokenizeCfg maxChunk pr.2 with
      | Option.none => Option.none
      | some ws => some (if ws = [] then [] else markParagraph pr.1 ps.length ws)) with
  | Option.none => Option.none
  | some l => some l.flatten

/-- `tokenize_paragraphs` (tokenizer.rs) at the source's fixed limit. -/
def tokenizeParagraphs (ps : List Str) : Option (List Word) :=
  tokenizeParagraphsCfg MAX_CHUNK_CHARS ps

/-- Modelled from the spec: `create_chapter_with_config` (referenced by
epub.rs, not under src/); identical to `create_chapter` of tokenizer.rs
except that the chunk limit is passed through. -/
def createChapterCfg (maxChunk : Nat) (index : Nat) (title : Str)
    (paragraphs : List Str) : Option Chapter :=
  match tokenizeParagraphsCfg maxChunk paragraphs with
  | Option.none => Option.none
  | some ws =>
    some { index := index, title := title, words := ws,
           stats := ChapterStats.fromWords ws }

/-! ## epub.rs

The zip decoder and the XML pull parser are external libraries (spec
section 9); what the core consumes is a named-entry archive and a
forward-only event stream.  An archive is modelled as the list of its
named entries, each entry holding the event stream that quick-xml
produces for that file's bytes; text events carry their unescaped text,
tag events their qualified (possibly namespace-prefixed) name and
attribute list. -/

inductive XmlEvent where
  | start (name : Str) (attrs : List (Str × Str))
  | empty (name : Str) (attrs : List (Str × Str))
  | text (s : Str)
  | endTag (name : Str)
deriving DecidableEq, Repr

abbrev Doc := List XmlEvent

abbrev Archive := List (Str × Doc)

/-- `EpubError` (epub.rs). -/
inductive EpubError where
  | zip
  | io
  | xml
  | missingContainer
  | missingOpf
  | invalidStructure (msg : Str)
deriving DecidableEq, Repr

instance {ε α : Type _} [DecidableEq ε] [DecidableEq α] : DecidableEq (Except ε α) :=
  fun x y =>
    match x, y with
    | .ok a, .ok b => if h : a = b then .isTrue (by rw [h]) else .isFalse (by simp [h])
    | .error a, .error b => if h : a = b then .isTrue (by rw [h]) else .isFalse (by simp [h])
    | .ok _, .error _ => .isFalse (by simp)
    | .error _, .ok _ => .isFalse (by simp)

/-- First attribute value with the given key, as the Rust loops over
`e.attributes().flatten()` return the first match. -/
def lookupAttr (key : Str) : List (Str × Str) → Option Str
  | [] => none
  | a :: rest => if a.1 = key then some a.2 else lookupAttr key rest

/-- First value bound to `key` in an association list (`HashMap::get`
for the way the maps are used here). -/
def lookupAssoc (m : List (Str × Str)) (key : Str) : Option Str :=
  match m.find? (fun e => e.1 = key) with
  | some e => some e.2
  | none => none

/-- `read_file` (epub.rs): exact entry name first, then a
case-insensitive scan of all entry names; otherwise
`InvalidStructure("File not found: {path}")`. -/
def readFile (archive : Archive) (path : Str) : Except EpubError Doc :=
  match archive.find? (fun e => e.1 = path) with
  | some e => .ok e.2
  | none =>
    match archive.find? (fun e => lowerStr e.1 = lowerStr path) with
    | some e => .ok e.2
    | none => .error (.invalidStructure (("File not found: ").toList ++ path))

/-- The scan loop of `read_container` (epub.rs): the first `Start` or
`Empty` event whose qualified name is exactly `rootfile` and that has a
`full-path` attribute yields that attribute's value. -/
def findRootfile : Doc → Option Str
  | [] => none
  | ev :: rest =>
    match ev with
    | .start n attrs | .empty n attrs =>
      if n = ("rootfile").toList then
        match lookupAttr ("full-path").toList attrs with
        | some v => some v
        | none => findRootfile rest
      else findRootfile rest
    | _ => findRootfile rest

/-- `read_container` (epub.rs): read `META-INF/container.xml` (errors
from `read_file` propagate), then scan for the rootfile path; `MissingOpf`
when the scan reaches the end of the document. -/
def readContainer (archive : Archive) : Except EpubError Str :=
  match readFile archive ("META-INF/container.xml").toList with
  | .error e => .error e
  | .ok evs =>
    match findRootfile evs with
    | some p => .ok p
    | none => .error .missingOpf

/-- Rust `str::trim` on the modelled repertoire. -/
def trimStr (s : Str) : Str :=
  ((s.dropWhile isWhitespaceChar).reverse.dropWhile isWhitespaceChar).reverse

def endsWithBreak (s : Str) : Bool :=
  match s.reverse with
  | '\n' :: '\n' :: _ => true
  | _ => false

/-- The accumulator state of `extract_text_from_xhtml`. -/
structure ExtractState where
  inBody : Bool
  skipDepth : Nat
  acc : Str
deriving Repr

/-- One event step of `extract_text_from_xhtml` (epub.rs). -/
def extractStep (st : ExtractState) (ev : XmlEvent) : ExtractState :=
  match ev with
  | .start n _ =>
    let tag := lowerStr n
    if tag = ("body").toList then { st with inBody := true }
    else if st.inBody then
      let st :=
        if tag = ("script").toList ∨ tag = ("style").toList ∨ tag = ("head").toList then
          { st with skipDepth := st.skipDepth + 1 }
        else st
      if (tag = ("p").toList ∨ tag = ("div").toList ∨ tag = ("br").toList ∨
          tag = ("h1").toList ∨ tag = ("h2").toList ∨ tag = ("h3").toList ∨
          tag = ("h4").toList ∨ tag = ("h5").toList ∨ tag = ("h6").toList) ∧
          ¬ endsWithBreak st.acc = true ∧ st.acc ≠ [] then
        { st with acc := st.acc ++ ['\n', '\n'] }
      else st
    else st
  | .endTag n =>
    let tag := lowerStr n
    if tag = ("body").toList then { st with inBody := false }
    else if (tag = ("script").toList ∨ tag = ("style").toList ∨ tag = ("head").toList) ∧
        0 < st.skipDepth then
      { st with skipDepth := st.skipDepth - 1 }
    else st
  | .text s =>
    if st.inBody ∧ st.skipDepth = 0 then
      let t := trimStr s
      if t ≠ [] then
        let acc :=
          if st.acc ≠ [] ∧ st.acc.getLast? ≠ some '\n' ∧ st.acc.getLast? ≠ some ' ' then
            st.acc ++ [' ']
          else st.acc
        { st with acc := acc ++ t }
      else st
    else st
  | .empty n _ =>
    if st.inBody ∧ lowerStr n = ("br").toList then
      { st with acc := st.acc ++ ['\n', '\n'] }
    else st

/-- `extract_text_from_xhtml` (epub.rs). -/
def extractText (evs : Doc) : Str :=
  (evs.foldl extractStep ⟨false, 0, []⟩).acc

/-- The scan loop of `extract_title_from_xhtml` (epub.rs).  A non-empty
text inside `h1`/`h2` is returned at once; a non-empty text inside
`title` only clears the `in_title_tag` flag and the scan goes on. -/
def extractTitleAux : Bool → Bool → Doc → Option Str
  | _, _, [] => none
  | inTitle, inH, ev :: rest =>
    match ev with
    | .start n _ =>
      let tag := lowerStr n
      if tag = ("title").toList then extractTitleAux true inH rest
      else if tag = ("h1").toList ∨ tag = ("h2").toList then extractTitleAux inTitle true rest
      else extractTitleAux inTitle inH rest
    | .text s =>
      if inH then
        let t := trimStr s
        if t ≠ [] then some t else extractTitleAux inTitle inH rest
      else if inTitle then
        let t := trimStr s
        if t ≠ [] then extractTitleAux false inH rest
        else extractTitleAux inTitle inH rest
      else extractTitleAux inTitle inH rest
    | .endTag n =>
      let tag := lowerStr n
      if tag = ("title").toList then extractTitleAux false inH rest
      else if tag = ("h1").toList ∨ tag = ("h2").toList then extractTitleAux inTitle false rest
      else extractTitleAux inTitle inH rest
    | .empty _ _ => extractTitleAux inTitle inH rest

/-- `extract_title_from_xhtml` (epub.rs). -/
def extractTitle (evs : Doc) : Option Str :=
  extractTitleAux false false evs

/-- Rust `str::split("\n\n")`: leftmost, non-overlapping. -/
def splitParas : Str → List Str
  | [] => [[]]
  | '\n' :: '\n' :: rest => [] :: splitParas rest
  | c :: rest =>
    match splitParas rest with
    | h :: t => (c :: h) :: t
    | [] => [[c]]

/-- The paragraph list built in `parse_epub_with_config`:
`text.split("\n\n").map(trim).filter(non-empty)`. -/
def paragraphsOf (text : Str) : List Str :=
  ((splitParas text).map trimStr).filter (fun s => s ≠ [])

/-- `format!("Chapter {}", index + 1)`. -/
def chapterFallbackTitle (index : Nat) : Str :=
  ("Chapter ").toList ++ (Nat.repr (index + 1)).toList

/-- Path resolution in the spine loop of `parse_epub_with_config`:
`href` unchanged when the package directory is empty, else
`format!("{}/{}", opf_dir, href)`. -/
def resolvePath (opfDir href : Str) : Str :=
  if opfDir = [] then href else opfDir ++ '/' :: href

/-- One iteration of the spine loop of `parse_epub_with_config`
(epub.rs): the entry is `(index, item_id)` from the enumerated spine.
`some none` models an iteration that pushes no chapter (id not in the
manifest, chapter file unreadable, or no non-empty paragraph); the
outer `none` models the tokenizer's slicing panic. -/
def entryChapter (archive : Archive) (opfDir : Str) (manifest : List (Str × Str))
    (maxChunk : Nat) (entry : Nat × Str) : Option (Option Chapter) :=
  match lookupAssoc manifest entry.2 with
  | none => some none
  | some href =>
    match readFile archive (resolvePath opfDir href) with
    | .error _ => some none
    | .ok doc =>
      let paragraphs := paragraphsOf (extractText doc)
      if paragraphs = [] then some none
      else
        let title := (extractTitle doc).getD (chapterFallbackTitle entry.1)
        match createChapterCfg maxChunk entry.1 title paragraphs with
        | none => none
        | some ch => some (some ch)

/-- The spine loop of `parse_epub_with_config` over an explicit list of
enumerated entries, collecting the pushed chapters in order. -/
def chaptersFromEntries (archive : Archive) (opfDir : Str)
    (manifest : List (Str × Str)) (maxChunk : Nat) :
    List (Nat × Str) → Option (List Chapter)
  | [] => some []
  | e :: rest =>
    match entryChapter archive opfDir manifest maxChunk e with
    | none => none
    | some oc =>
      match chaptersFromEntries archive opfDir manifest maxChunk rest with
      | none => none
      | some chs =>
        some (match oc with | some c => c :: chs | none => chs)

/-- The chapter-building stage of `parse_epub_with_config` (epub.rs):
the spine is enumerated from 0 (`spine.iter().enumerate()`). -/
def buildChapters (archive : Archive) (opfDir : Str) (manifest : List (Str × Str))
    (maxChunk : Nat) (spine : List Str) : Option (List Chapter) :=
  chaptersFromEntries archive opfDir manifest maxChunk spine.enum

/-! ## Concrete example data and small auxiliary definitions used by the
theorems below -/

/-- The hyphen-stripped content of a chunk (the chunk's own characters,
continuation hyphens aside). -/
def stripHyphens (s : Str) : Str :=
  s.filter (fun x => !(x == '-'))

/-- A concrete word list and chapter used to witness C1's hypotheses. -/
def c1ExampleWords : List Word :=
  [⟨("Hello,").toList, .medium, .comma⟩, ⟨("world!").toList, .medium, .period⟩]

def c1ExampleChapter : Chapter :=
  ⟨0, ("One").toList, c1ExampleWords, ChapterStats.fromWords c1ExampleWords⟩


/-! ## Infrastructure lemmas -/

theorem byteLen_append (a b : Str) : byteLen (a ++ b) = byteLen a + byteLen b := by
  induction a with
  | nil => simp [byteLen]
  | cons c cs ih => simp [byteLen, ih]; omega

theorem length_le_byteLen (s : Str) : s.length ≤ byteLen s := by
  induction s with
  | nil => simp [byteLen]
  | cons c cs ih =>
    have := Char.utf8Size_pos c
    simp [byteLen]
    omega

theorem byteLen_ascii {s : Str} (h : ∀ c ∈ s, c.utf8Size = 1) : byteLen s = s.length := by
  induction s with
  | nil => simp [byteLen]
  | cons c cs ih =>
    have hc := h c (by simp)
    simp [byteLen, hc, ih fun x hx => h x (by simp [hx])]
    omega

theorem takeBytes_spec :
    ∀ (n : Nat) (s a b : Str), takeBytes n s = some (a, b) → byteLen a = n ∧ s = a ++ b := by
  intro n s
  induction s generalizing n with
  | nil =>
    intro a b h
    cases n with
    | zero => simp [takeBytes] at h; simp [h.1, h.2, byteLen]
    | succ m => simp [takeBytes] at h
  | cons c cs ih =>
    intro a b h
    cases n with
    | zero => simp [takeBytes] at h; simp [h.1, h.2, byteLen]
    | succ m =>
      simp only [takeBytes] at h
      by_cases hsz : c.utf8Size ≤ m + 1
      · simp only [if_pos hsz] at h
        cases htb : takeBytes (m + 1 - c.utf8Size) cs with
        | none => rw [htb] at h; simp at h
        | some pr =>
          rw [htb] at h
          cases pr with
          | mk a' b' =>
            simp at h
            obtain ⟨ha, hb⟩ := h
            obtain ⟨h1, h2⟩ := ih (m + 1 - c.utf8Size) a' b' htb
            subst ha hb
            constructor
            · simp [byteLen, h1]; omega
            · simp [h2]
      · simp [if_neg hsz] at h

theorem takeBytes_ascii :
    ∀ (n : Nat) (s : Str), (∀ c ∈ s, c.utf8Size = 1) → n ≤ s.length →
      takeBytes n s = some (s.take n, s.drop n) := by
  intro n s
  induction s generalizing n with
  | nil =>
    intro _ hn
    have hz : n = 0 := by simpa using hn
    subst hz
    simp [takeBytes]
  | cons c cs ih =>
    intro hasc hn
    cases n with
    | zero => simp [takeBytes]
    | succ m =>
      have hc : c.utf8Size = 1 := hasc c (by simp)
      simp only [takeBytes, hc]
      have hm : m ≤ cs.length := by simpa using hn
      rw [if_pos (by omega)]
      have h1 : m + 1 - 1 = m := by omega
      rw [h1, ih m (fun x hx => hasc x (by simp [hx])) hm]
      simp

theorem chunkMiddleAux_some_byteLen :
    ∀ (max fuel : Nat) (s : Str) (r : List Str),
      chunkMiddleAux max fuel s = some r → ∀ p ∈ r, byteLen p ≤ max := by
  intro max fuel
  induction fuel with
  | zero =>
    intro s r h
    cases s with
    | nil =>
      simp [chunkMiddleAux] at h
      subst h
      simp
    | cons c cs => simp [chunkMiddleAux] at h
  | succ fuel ih =>
    intro s r h
    cases s with
    | nil =>
      simp [chunkMiddleAux] at h
      subst h
      simp
    | cons c cs =>
      simp only [chunkMiddleAux] at h
      by_cases hle : byteLen (c :: cs) ≤ max
      · rw [if_pos hle] at h
        simp at h
        simp [← h, hle]
      · rw [if_neg hle] at h
        cases htb : takeBytes max (c :: cs) with
        | none => rw [htb] at h; simp at h
        | some pr =>
          rw [htb] at h
          cases pr with
          | mk a b =>
            cases hrec : chunkMiddleAux max fuel b with
            | none => simp [hrec] at h
            | some r' =>
              simp [hrec] at h
              obtain ⟨hba, _⟩ := takeBytes_spec max (c :: cs) a b htb
              intro p hp
              rw [← h] at hp
              rcases List.mem_cons.mp hp with hpa | hpr
              · subst hpa; omega
              · exact ih b r' hrec p hpr

theorem chunkMiddleAux_some_chars :
    ∀ (max fuel : Nat) (s : Str) (r : List Str),
      chunkMiddleAux max fuel s = some r → ∀ p ∈ r, ∀ x ∈ p, x ∈ s := by
  intro max fuel
  induction fuel with
  | zero =>
    intro s r h
    cases s with
    | nil =>
      simp [chunkMiddleAux] at h
      subst h
      simp
    | cons c cs => simp [chunkMiddleAux] at h
  | succ fuel ih =>
    intro s r h
    cases s with
    | nil =>
      simp [chunkMiddleAux] at h
      subst h
      simp
    | cons c cs =>
      simp only [chunkMiddleAux] at h
      by_cases hle : byteLen (c :: cs) ≤ max
      · rw [if_pos hle] at h
        simp at h
        simp [← h]
      · rw [if_neg hle] at h
        cases htb : takeBytes max (c :: cs) with
        | none => rw [htb] at h; simp at h
        | some pr =>
          rw [htb] at h
          cases pr with
          | mk a b =>
            cases hrec : chunkMiddleAux max fuel b with
            | none => simp [hrec] at h
            | some r' =>
              simp [hrec] at h
              obtain ⟨_, happ⟩ := takeBytes_spec max (c :: cs) a b htb
              intro p hp x hx
              rw [← h] at hp
              rcases List.mem_cons.mp hp with hpa | hpr
              · subst hpa; rw [happ]; exact List.mem_append_left _ hx
              · rw [happ]; exact List.mem_append_right _ (ih b r' hrec p hpr x hx)

theorem chunkMiddleAux_some_ne_nil :
    ∀ (max fuel : Nat) (s : Str) (r : List Str),
      chunkMiddleAux max fuel s = some r → s ≠ [] → r ≠ [] := by
  intro max fuel s r h hs
  cases fuel with
  | zero =>
    cases s with
    | nil => exact absurd rfl hs
    | cons c cs => simp [chunkMiddleAux] at h
  | succ fuel =>
    cases s with
    | nil => exact absurd rfl hs
    | cons c cs =>
      simp only [chunkMiddleAux] at h
      by_cases hle : byteLen (c :: cs) ≤ max
      · rw [if_pos hle] at h
        simp at h
        simp [← h]
      · rw [if_neg hle] at h
        cases htb : takeBytes max (c :: cs) with
        | none => rw [htb] at h; simp at h
        | some pr =>
          rw [htb] at h
          cases pr with
          | mk a b =>
            cases hrec : chunkMiddleAux max fuel b with
            | none => simp [hrec] at h
            | some r' => simp [hrec] at h; simp [← h]

theorem chunkMiddleAux_two_of_long :
    ∀ (max fuel : Nat) (s : Str) (r : List Str),
      chunkMiddleAux max fuel s = some r → max < byteLen s → 2 ≤ r.length := by
  intro max fuel s r h hlong
  cases fuel with
  | zero =>
    cases s with
    | nil => simp [byteLen] at hlong
    | cons c cs => simp [chunkMiddleAux] at h
  | succ fuel =>
    cases s with
    | nil => simp [byteLen] at hlong
    | cons c cs =>
      simp only [chunkMiddleAux] at h
      rw [if_neg (by omega)] at h
      cases htb : takeBytes max (c :: cs) with
      | none => rw [htb] at h; simp at h
      | some pr =>
        rw [htb] at h
        cases pr with
        | mk a b =>
          cases hrec : chunkMiddleAux max fuel b with
          | none => simp [hrec] at h
          | some r' =>
            simp [hrec] at h
            obtain ⟨hba, happ⟩ := takeBytes_spec max (c :: cs) a b htb
            have hbne : b ≠ [] := by
              intro hbnil
              rw [hbnil, List.append_nil] at happ
              rw [happ] at hlong
              omega
            have := chunkMiddleAux_some_ne_nil max fuel b r' hrec hbne
            rw [← h]
            cases r' with
            | nil => exact absurd rfl this
            | cons _ _ => simp

theorem chunkMiddleAux_ascii_isSome :
    ∀ (max fuel : Nat) (s : Str), (∀ c ∈ s, c.utf8Size = 1) → s.length ≤ fuel → 1 ≤ max →
      (chunkMiddleAux max fuel s).isSome := by
  intro max fuel
  induction fuel with
  | zero =>
    intro s hasc hn _
    cases s with
    | nil => simp [chunkMiddleAux]
    | cons c cs => simp at hn
  | succ fuel ih =>
    intro s hasc hn hmax
    cases s with
    | nil => simp [chunkMiddleAux]
    | cons c cs =>
      simp only [chunkMiddleAux]
      by_cases hle : byteLen (c :: cs) ≤ max
      · simp [if_pos hle]
      · rw [if_neg hle]
        have hblen : byteLen (c :: cs) = (c :: cs).length := byteLen_ascii hasc
        have hmle : max ≤ (c :: cs).length := by omega
        rw [takeBytes_ascii max (c :: cs) hasc hmle]
        have hdrop : ∀ x ∈ (c :: cs).drop max, x.utf8Size = 1 :=
          fun x hx => hasc x (List.mem_of_mem_drop hx)
        have hdlen : ((c :: cs).drop max).length ≤ fuel := by
          simp at hn ⊢
          omega
        have := ih ((c :: cs).drop max) hdrop hdlen hmax
        cases hrec : chunkMiddleAux max fuel ((c :: cs).drop max) with
        | none => rw [hrec] at this; simp at this
        | some r' => simp [hrec]

/-! ## Statistics lemmas (C1) -/

theorem Counts4.sum_bumpLength (x : Counts4) (b : LengthBucket) :
    (x.bumpLength b).sum = x.sum + 1 := by
  cases b <;> simp [Counts4.bumpLength, Counts4.sum] <;> omega

theorem Counts4.sum_bumpPunct (x : Counts4) (p : Punctuation) :
    (x.bumpPunct p).sum = x.sum + 1 := by
  cases p <;> simp [Counts4.bumpPunct, Counts4.sum] <;> omega

theorem fromWords_loop_sums :
    ∀ (ws : List Word) (s : ChapterStats),
      (ws.foldl (fun s w =>
        { s with
          lengthCounts := s.lengthCounts.bumpLength w.lengthBucket
          punctCounts := s.punctCounts.bumpPunct w.followingPunct }) s).wordCount
          = s.wordCount ∧
      (ws.foldl (fun s w =>
        { s with
          lengthCounts := s.lengthCounts.bumpLength w.lengthBucket
          punctCounts := s.punctCounts.bumpPunct w.followingPunct }) s).lengthCounts.sum
          = s.lengthCounts.sum + ws.length ∧
      (ws.foldl (fun s w =>
        { s with
          lengthCounts := s.lengthCounts.bumpLength w.lengthBucket
          punctCounts := s.punctCounts.bumpPunct w.followingPunct }) s).punctCounts.sum
          = s.punctCounts.sum + ws.length := by
  intro ws
  induction ws with
  | nil => intro s; simp
  | cons w tl ih =>
    intro s
    obtain ⟨h1, h2, h3⟩ := ih
      { s with
        lengthCounts := s.lengthCounts.bumpLength w.lengthBucket
        punctCounts := s.punctCounts.bumpPunct w.followingPunct }
    refine ⟨?_, ?_, ?_⟩
    · simpa using h1
    · simp only [List.foldl_cons] at h2 ⊢
      rw [h2]
      simp [Counts4.sum_bumpLength]
      omega
    · simp only [List.foldl_cons] at h3 ⊢
      rw [h3]
      simp [Counts4.sum_bumpPunct]
      omega

theorem fromWords_wordCount (ws : List Word) :
    (ChapterStats.fromWords ws).wordCount = ws.length := by
  have := (fromWords_loop_sums ws { ChapterStats.default with wordCount := ws.length }).1
  simpa [ChapterStats.fromWords] using this

theorem fromWords_sums (ws : List Word) :
    (ChapterStats.fromWords ws).lengthCounts.sum = (ChapterStats.fromWords ws).wordCount ∧
    (ChapterStats.fromWords ws).punctCounts.sum = (ChapterStats.fromWords ws).wordCount := by
  obtain ⟨h1, h2, h3⟩ := fromWords_loop_sums ws { ChapterStats.default with wordCount := ws.length }
  rw [fromWords_wordCount]
  constructor
  · simpa [ChapterStats.fromWords, ChapterStats.default, Counts4.zero, Counts4.sum] using h2
  · simpa [ChapterStats.fromWords, ChapterStats.default, Counts4.zero, Counts4.sum] using h3

theorem merge_loop_sums :
    ∀ (chs : List Chapter) (a : ChapterStats),
      (chs.foldl (fun a c => a.merge c.stats) a).wordCount
        = a.wordCount + (chs.map (fun c => c.stats.wordCount)).sum ∧
      (chs.foldl (fun a c => a.merge c.stats) a).lengthCounts.sum
        = a.lengthCounts.sum + (chs.map (fun c => c.stats.lengthCounts.sum)).sum ∧
      (chs.foldl (fun a c => a.merge c.stats) a).punctCounts.sum
        = a.punctCounts.sum + (chs.map (fun c => c.stats.punctCounts.sum)).sum := by
  intro chs
  induction chs with
  | nil => intro a; simp
  | cons c tl ih =>
    intro a
    obtain ⟨h1, h2, h3⟩ := ih (a.merge c.stats)
    refine ⟨?_, ?_, ?_⟩
    · simp only [List.foldl_cons] at h1 ⊢
      rw [h1]
      simp [ChapterStats.merge]
      omega
    · simp only [List.foldl_cons] at h2 ⊢
      rw [h2]
      simp [ChapterStats.merge, Counts4.add, Counts4.sum]
      omega
    · simp only [List.foldl_cons] at h3 ⊢
      rw [h3]
      simp [ChapterStats.merge, Counts4.add, Counts4.sum]
      omega

/-- Claim C1: for every parsed Book, `stats.total_words` equals the sum of the
chapters' `word_count`s, and for every `ChapterStats` (per-chapter via
`from_words`, and the book-level aggregate) the four `length_counts`
slots and the four `punct_counts` slots each sum to `word_count`. -/
theorem c1_stats_invariant :
    (∀ ws : List Word,
      (ChapterStats.fromWords ws).lengthCounts.sum = (ChapterStats.fromWords ws).wordCount ∧
      (ChapterStats.fromWords ws).punctCounts.sum = (ChapterStats.fromWords ws).wordCount) ∧
    ∀ chs : List Chapter,
      (∀ c ∈ chs, c.stats = ChapterStats.fromWords c.words) →
      (BookStats.fromChapters chs).totalWords = (chs.map (fun c => c.stats.wordCount)).sum ∧
      (BookStats.fromChapters chs).aggregated.lengthCounts.sum
        = (BookStats.fromChapters chs).aggregated.wordCount ∧
      (BookStats.fromChapters chs).aggregated.punctCounts.sum
        = (BookStats.fromChapters chs).aggregated.wordCount := by
  constructor
  · exact fromWords_sums
  · intro chs hstats
    obtain ⟨h1, h2, h3⟩ := merge_loop_sums chs ChapterStats.default
    have hlen : (chs.map (fun c => c.stats.lengthCounts.sum)).sum
        = (chs.map (fun c => c.stats.wordCount)).sum := by
      congr 1
      apply List.map_congr_left
      intro c hc
      rw [hstats c hc]
      exact (fromWords_sums c.words).1
    have hpun : (chs.map (fun c => c.stats.punctCounts.sum)).sum
        = (chs.map (fun c => c.stats.wordCount)).sum := by
      congr 1
      apply List.map_congr_left
      intro c hc
      rw [hstats c hc]
      exact (fromWords_sums c.words).2
    refine ⟨?_, ?_, ?_⟩
    · simpa [BookStats.fromChapters, ChapterStats.default] using h1
    · simp only [BookStats.fromChapters]
      rw [h2, h1, hlen]
      simp [ChapterStats.default, Counts4.zero, Counts4.sum]
    · simp only [BookStats.fromChapters]
      rw [h3, h1, hpun]
      simp [ChapterStats.default, Counts4.zero, Counts4.sum]


theorem c1_stats_invariant_witness :
    (BookStats.fromChapters [c1ExampleChapter]).totalWords
      = ([c1ExampleChapter].map (fun c => c.stats.wordCount)).sum ∧
    (BookStats.fromChapters [c1ExampleChapter]).aggregated.lengthCounts.sum
      = (BookStats.fromChapters [c1ExampleChapter]).aggregated.wordCount ∧
    (BookStats.fromChapters [c1ExampleChapter]).aggregated.punctCounts.sum
      = (BookStats.fromChapters [c1ExampleChapter]).aggregated.wordCount :=
  c1_stats_invariant.2 [c1ExampleChapter] (by decide)

/-! ## Chunk-formatting lemmas (C2, C3) -/

theorem formatPieces_length (f h : Bool) (ps : List Str) :
    (formatPieces f h ps).length = ps.length := by
  simp [formatPieces]

theorem formatPieces_mem {f h : Bool} {ps : List Str} {c : Str}
    (hc : c ∈ formatPieces f h ps) :
    ∃ p ∈ ps, c = p ∨ c = p ++ ['-'] ∨ c = '-' :: p ∨ c = '-' :: (p ++ ['-']) := by
  simp only [formatPieces, List.mem_map] at hc
  obtain ⟨pr, hmem, hform⟩ := hc
  refine ⟨pr.2, List.snd_mem_of_mem_enum hmem, ?_⟩
  subst hform
  by_cases h1 : (f && pr.1 == 0) = true <;>
    by_cases h2 : (pr.1 == ps.length - 1) = true <;>
      by_cases h3 : h = true <;>
        simp [h1, h2, h3]

theorem isAlphabetic_ne_hyphen {x : Char} (h : isAlphabetic x = true) : x ≠ '-' := by
  intro hx
  subst hx
  simp [isAlphabetic] at h

theorem stripHyphens_eq_self {p : Str} (h : ∀ x ∈ p, x ≠ '-') : stripHyphens p = p := by
  apply List.filter_eq_self.mpr
  intro a ha
  simpa using h a ha

theorem stripHyphens_forms {p : Str} (h : ∀ x ∈ p, x ≠ '-') :
    stripHyphens p = p ∧ stripHyphens (p ++ ['-']) = p ∧
    stripHyphens ('-' :: p) = p ∧ stripHyphens ('-' :: (p ++ ['-'])) = p := by
  have hself := stripHyphens_eq_self h
  refine ⟨hself, ?_, ?_, ?_⟩ <;>
    simp [stripHyphens, List.filter_append] <;>
      simpa [stripHyphens] using hself

theorem PREFIXES_byteLen_le : ∀ p ∈ PREFIXES, byteLen p ≤ 7 := by decide

theorem SUFFIXES_byteLen_le : ∀ s ∈ SUFFIXES, byteLen s ≤ 7 := by decide

theorem pfxStage_spec {clean cleanLower : Str} {c1 : List Str} {rem : Str} {fi : Bool}
    (h : pfxStage clean cleanLower = some (c1, rem, fi)) :
    (c1 = [] ∧ rem = clean ∧ fi = true) ∨
    ∃ p pre, p ∈ PREFIXES ∧ byteLen pre = byteLen p ∧ clean = pre ++ rem ∧
      c1 = [pre ++ ['-']] ∧ fi = false := by
  simp only [pfxStage] at h
  split at h
  next hfind =>
    simp at h
    exact Or.inl ⟨h.1, h.2.1.symm, h.2.2⟩
  next p hfind =>
    split at h
    next htb => simp at h
    next pre rest htb =>
      simp at h
      obtain ⟨hb, happ⟩ := takeBytes_spec (byteLen p) clean pre rest htb
      refine Or.inr ⟨p, pre, List.mem_of_find?_eq_some hfind, hb, ?_, ?_, ?_⟩
      · rw [happ, h.2.1]
      · rw [← h.1]
      · exact h.2.2

theorem sfxStage_spec {rem mid : Str} {sfx : Option Str}
    (h : sfxStage rem = some (mid, sfx)) :
    (sfx = Option.none ∧ mid = rem) ∨
    ∃ s suf, s ∈ SUFFIXES ∧ byteLen suf = byteLen s ∧ rem = mid ++ suf ∧
      sfx = some ('-' :: suf) := by
  simp only [sfxStage] at h
  split at h
  next hfind =>
    simp at h
    exact Or.inl ⟨h.2.symm, h.1.symm⟩
  next s hfind =>
    split at h
    next htb => simp at h
    next m suf htb =>
      simp at h
      obtain ⟨hb, happ⟩ := takeBytes_spec (byteLen rem - byteLen s) rem m suf htb
      have hpred := List.find?_some hfind
      simp at hpred
      have hsle : byteLen s + MIN_CHUNK_CHARS < byteLen rem := hpred.2
      have hsuf : byteLen suf = byteLen s := by
        have hba := byteLen_append m suf
        rw [← happ] at hba
        omega
      refine Or.inr ⟨s, suf, List.mem_of_find?_eq_some hfind, hsuf, ?_, ?_⟩
      · rw [happ, h.1]
      · rw [← h.2]

/-- Claim C2: with the chunk limit `max_chunk_chars` of the configurable entry
point (range [10, 22]; the convenience entry point's fixed default is
13), every chunk that an actually-split token yields carries, hyphens
aside, at most `max_chunk_chars` characters; in particular each middle
piece does. -/
theorem c2_chunk_size_bound :
    DEFAULT_MAX_CHUNK_CHARS = 13 ∧
    ∀ (maxChunk : Nat) (w : Str) (r : List Str),
      10 ≤ maxChunk → maxChunk ≤ 22 →
      splitLongWordCfg maxChunk w = some r → 2 ≤ r.length →
      ∀ c ∈ r, (stripHyphens c).length ≤ maxChunk := by
  refine ⟨rfl, ?_⟩
  intro maxChunk w r h10 _h22 hsp hlen2 c hc
  have hclean : ∀ x ∈ w.filter isAlphabetic, isAlphabetic x = true :=
    fun x hx => List.of_mem_filter hx
  simp only [splitLongWordCfg] at hsp
  split at hsp
  · simp at hsp
    rw [← hsp] at hlen2
    simp at hlen2
  · cases hpfx : pfxStage (w.filter isAlphabetic) (lowerStr (w.filter isAlphabetic)) with
    | none => rw [hpfx] at hsp; simp at hsp
    | some s1 =>
      obtain ⟨chunks1, remaining, isFirst⟩ := s1
      rw [hpfx] at hsp
      dsimp only at hsp
      cases hsfx : sfxStage remaining with
      | none => rw [hsfx] at hsp; simp at hsp
      | some s2 =>
        obtain ⟨middle, sfxChunk⟩ := s2
        rw [hsfx] at hsp
        dsimp only at hsp
        cases hcm : chunkMiddle maxChunk middle with
        | none => rw [hcm] at hsp; simp at hsp
        | some pieces =>
          rw [hcm] at hsp
          dsimp only at hsp
          split at hsp
          · simp at hsp
            rw [← hsp] at hlen2
            simp at hlen2
          · simp only [Option.some.injEq] at hsp
            subst hsp
            -- character classes of the three string regions
            have hpspec := pfxStage_spec hpfx
            have hsspec := sfxStage_spec hsfx
            have hrem : ∀ x ∈ remaining, isAlphabetic x = true := by
              rcases hpspec with ⟨_, hrc, _⟩ | ⟨p, pre, _, _, happ, _, _⟩
              · rw [hrc]; exact hclean
              · intro x hx
                exact hclean x (happ ▸ List.mem_append_right pre hx)
            have hmid : ∀ x ∈ middle, isAlphabetic x = true := by
              rcases hsspec with ⟨_, hmr⟩ | ⟨s, suf, _, _, happ, _⟩
              · rw [hmr]; exact hrem
              · intro x hx
                exact hrem x (happ ▸ List.mem_append_left suf hx)
            have hcma : chunkMiddleAux maxChunk middle.length middle = some pieces := by
              simpa [chunkMiddle] using hcm
            rcases List.mem_append.mp hc with hc12 | hcs
            · rcases List.mem_append.mp hc12 with hc1 | hcf
              · -- prefix chunk
                rcases hpspec with ⟨hc1nil, _, _⟩ | ⟨p, pre, hpmem, hpb, happ, hc1val, _⟩
                · rw [hc1nil] at hc1; simp at hc1
                · rw [hc1val] at hc1
                  simp at hc1
                  subst hc1
                  have hpre : ∀ x ∈ pre, x ≠ '-' := fun x hx =>
                    isAlphabetic_ne_hyphen (hclean x (happ ▸ List.mem_append_left remaining hx))
                  rw [(stripHyphens_forms hpre).2.1]
                  have h1 := length_le_byteLen pre
                  have h2 := PREFIXES_byteLen_le p hpmem
                  omega
              · -- middle chunk
                obtain ⟨p, hpmem, hforms⟩ := formatPieces_mem hcf
                have hpne : ∀ x ∈ p, x ≠ '-' := fun x hx =>
                  isAlphabetic_ne_hyphen
                    (hmid x (chunkMiddleAux_some_chars maxChunk middle.length middle pieces
                      hcma p hpmem x hx))
                have hbnd := chunkMiddleAux_some_byteLen maxChunk middle.length middle pieces
                  hcma p hpmem
                have hlb := length_le_byteLen p
                obtain ⟨hf1, hf2, hf3, hf4⟩ := stripHyphens_forms hpne
                rcases hforms with rfl | rfl | rfl | rfl
                · rw [hf1]; omega
                · rw [hf2]; omega
                · rw [hf3]; omega
                · rw [hf4]; omega
            · -- suffix chunk
              rcases hsspec with ⟨hsnone, _⟩ | ⟨s, suf, hsmem, hsb, happ, hsval⟩
              · rw [hsnone] at hcs; simp at hcs
              · rw [hsval] at hcs
                simp [Option.toList] at hcs
                subst hcs
                have hsufne : ∀ x ∈ suf, x ≠ '-' := fun x hx =>
                  isAlphabetic_ne_hyphen (hrem x (happ ▸ List.mem_append_right middle hx))
                rw [show stripHyphens ('-' :: suf) = suf from (stripHyphens_forms hsufne).2.2.1]
                have h1 := length_le_byteLen suf
                have h2 := SUFFIXES_byteLen_le s hsmem
                omega

theorem c2_chunk_size_bound_witness :
    (stripHyphens (("-national-").toList)).length ≤ 13 :=
  c2_chunk_size_bound.2 13 (("internationalization").toList)
    [("inter-").toList, ("-national-").toList, ("-ization").toList]
    (by decide) (by decide) (by decide) (by decide)
    (("-national-").toList) (by decide)

/-- Claim C3, counterexample: `"aaaaaaaaaaaaa"` (13 alphabetic characters,
matching no table prefix and no table suffix) is returned as one
unsplit chunk, not cut into two or more middle pieces; and
`"éééééééé"` has only 8 alphabetic characters, yet `split_long_word`
does not return it unsplit (its 16-byte clean form passes the byte-based
threshold and the chunk slicing panics inside a character). -/
theorem c3_split_threshold_counterexample :
    ((List.replicate 13 'a').filter isAlphabetic).length = 13 ∧
    PREFIXES.all (fun p => !(p.isPrefixOf
      (lowerStr ((List.replicate 13 'a').filter isAlphabetic)))) = true ∧
    SUFFIXES.all (fun s => !(s.isSuffixOf
      (lowerStr ((List.replicate 13 'a').filter isAlphabetic)))) = true ∧
    splitLongWord (List.replicate 13 'a') = some [List.replicate 13 'a'] ∧
    ((List.replicate 8 'é').filter isAlphabetic).length = 8 ∧
    splitLongWord (List.replicate 8 'é') = none := by
  decide

/-- Claim C3, amended: the split threshold is measured on the UTF-8 byte
length of the token's alphabetic characters, not their count — a token
whose clean form is under 13 bytes is always returned as one unsplit
chunk; an ASCII token whose clean form has 13 or more characters and
matches no table prefix and no table suffix is cut into at least two
middle pieces of at most `MAX_CHUNK_CHARS` characters each whenever its
clean form is longer than `MAX_CHUNK_CHARS`, and collapses back to the
single original token when the clean form fits in one piece. -/
theorem c3_split_threshold_amended :
    (∀ w : Str, byteLen (w.filter isAlphabetic) < MIN_SPLIT_LENGTH →
      splitLongWord w = some [w]) ∧
    (∀ w : Str, (∀ c ∈ w, c.utf8Size = 1) →
      (∀ p ∈ PREFIXES, ¬ p.isPrefixOf (lowerStr (w.filter isAlphabetic))) →
      (∀ s ∈ SUFFIXES, ¬ s.isSuffixOf (lowerStr (w.filter isAlphabetic))) →
      MIN_SPLIT_LENGTH ≤ (w.filter isAlphabetic).length →
      (MAX_CHUNK_CHARS < (w.filter isAlphabetic).length →
        ∃ r, splitLongWord w = some r ∧ 2 ≤ r.length ∧
          ∀ c ∈ r, (stripHyphens c).length ≤ MAX_CHUNK_CHARS) ∧
      ((w.filter isAlphabetic).length ≤ MAX_CHUNK_CHARS →
        splitLongWord w = some [w])) := by
  constructor
  · intro w h
    simp [splitLongWord, splitLongWordCfg, h]
  · intro w hascii hnp hns hmin
    have hasciiClean : ∀ x ∈ w.filter isAlphabetic, x.utf8Size = 1 :=
      fun x hx => hascii x (List.mem_of_mem_filter hx)
    have halpha : ∀ x ∈ w.filter isAlphabetic, isAlphabetic x = true :=
      fun x hx => List.of_mem_filter hx
    have hbl : byteLen (w.filter isAlphabetic) = (w.filter isAlphabetic).length :=
      byteLen_ascii hasciiClean
    have hnotlt : ¬ byteLen (w.filter isAlphabetic) < MIN_SPLIT_LENGTH := by
      rw [hbl]; omega
    have hpfind : PREFIXES.find? (fun p =>
        p.isPrefixOf (lowerStr (w.filter isAlphabetic)) &&
          decide (byteLen p + MIN_CHUNK_CHARS < byteLen (w.filter isAlphabetic))) = none := by
      apply List.find?_eq_none.mpr
      intro p hp
      simp only [Bool.and_eq_true, decide_eq_true_eq, not_and]
      intro hpre
      exact absurd hpre (hnp p hp)
    have hsfind : SUFFIXES.find? (fun s =>
        s.isSuffixOf (lowerStr (w.filter isAlphabetic)) &&
          decide (byteLen s + MIN_CHUNK_CHARS < byteLen (w.filter isAlphabetic))) = none := by
      apply List.find?_eq_none.mpr
      intro s hs
      simp only [Bool.and_eq_true, decide_eq_true_eq, not_and]
      intro hsuf
      exact absurd hsuf (hns s hs)
    have hpfx : pfxStage (w.filter isAlphabetic) (lowerStr (w.filter isAlphabetic))
        = some ([], w.filter isAlphabetic, true) := by
      simp [pfxStage, hpfind]
    have hsfx : sfxStage (w.filter isAlphabetic)
        = some (w.filter isAlphabetic, Option.none) := by
      simp [sfxStage, hsfind]
    constructor
    · -- long clean form: at least two bounded middle pieces
      intro hlong
      have hsome := chunkMiddleAux_ascii_isSome MAX_CHUNK_CHARS
        (w.filter isAlphabetic).length (w.filter isAlphabetic) hasciiClean le_rfl
        (by simp [MAX_CHUNK_CHARS])
      obtain ⟨pieces, hcma⟩ := Option.isSome_iff_exists.mp hsome
      have hcm : chunkMiddle MAX_CHUNK_CHARS (w.filter isAlphabetic) = some pieces := by
        simpa [chunkMiddle] using hcma
      have h2p : 2 ≤ pieces.length :=
        chunkMiddleAux_two_of_long MAX_CHUNK_CHARS (w.filter isAlphabetic).length
          (w.filter isAlphabetic) pieces hcma (by rw [hbl]; exact hlong)
      have hfplen : (formatPieces true false pieces).length = pieces.length :=
        formatPieces_length true false pieces
      refine ⟨formatPieces true false pieces, ?_, by omega, ?_⟩
      · simp only [splitLongWord, splitLongWordCfg, hnotlt, if_false, hpfx, hsfx, hcm]
        have : ¬ (formatPieces true false pieces).length ≤ 1 := by omega
        simp [this]
      · intro c hcf
        obtain ⟨p, hpmem, hforms⟩ := formatPieces_mem hcf
        have hpne : ∀ x ∈ p, x ≠ '-' := fun x hx =>
          isAlphabetic_ne_hyphen
            (halpha x (chunkMiddleAux_some_chars MAX_CHUNK_CHARS
              (w.filter isAlphabetic).length (w.filter isAlphabetic) pieces hcma p hpmem x hx))
        have hbnd := chunkMiddleAux_some_byteLen MAX_CHUNK_CHARS
          (w.filter isAlphabetic).length (w.filter isAlphabetic) pieces hcma p hpmem
        have hlb := length_le_byteLen p
        obtain ⟨hf1, hf2, hf3, hf4⟩ := stripHyphens_forms hpne
        rcases hforms with rfl | rfl | rfl | rfl
        · rw [hf1]; omega
        · rw [hf2]; omega
        · rw [hf3]; omega
        · rw [hf4]; omega
    · -- short clean form: the single piece collapses to the original
      intro hshort
      have hcm : chunkMiddle MAX_CHUNK_CHARS (w.filter isAlphabetic)
          = some [w.filter isAlphabetic] := by
        cases hcl : w.filter isAlphabetic with
        | nil =>
          rw [hcl] at hmin
          simp [MIN_SPLIT_LENGTH] at hmin
        | cons c cs =>
          rw [hcl] at hbl hshort
          simp only [chunkMiddle, List.length_cons, chunkMiddleAux]
          rw [if_pos (by omega)]
      simp only [splitLongWord, splitLongWordCfg, hnotlt, if_false, hpfx, hsfx, hcm]
      simp [formatPieces]

theorem c3_split_threshold_amended_witness :
    splitLongWord (("hello").toList) = some [("hello").toList] ∧
    splitLongWord (List.replicate 13 'b') = some [List.replicate 13 'b'] :=
  ⟨c3_split_threshold_amended.1 (("hello").toList) (by decide),
   (c3_split_threshold_amended.2 (List.replicate 13 'b') (by decide) (by decide)
     (by decide) (by decide)).2 (by decide)⟩

/-! ## Tokenize lemmas (C4) -/

theorem mkWords_getElem? (p : Punctuation) (cs : List Str) (i : Nat) :
    (mkWords p cs)[i]? = (cs[i]?).map fun ch =>
      ⟨ch, LengthBucket.fromLength ((ch.filter isWordChar).length),
        if i = cs.length - 1 then p else Punctuation.none⟩ := by
  simp only [mkWords, List.getElem?_map, List.getElem?_enum]
  cases cs[i]? <;> simp

theorem mkWords_length (p : Punctuation) (cs : List Str) :
    (mkWords p cs).length = cs.length := by
  simp [mkWords]

/-- Claim C4: whenever the per-token step of `tokenize` yields two or more
chunks, every chunk before the last carries `Punctuation::None` and the
last chunk carries the class computed from the last character of the
original, pre-split token. -/
theorem c4_punct_on_last_chunk :
    ∀ (raw : Str) (ws : List Word), processRaw raw = some ws → 2 ≤ ws.length →
      (∀ i, i + 1 < ws.length → ws[i]?.map Word.followingPunct = some Punctuation.none) ∧
      ∃ c lw, raw.getLast? = some c ∧ ws.getLast? = some lw ∧
        lw.followingPunct = Punctuation.fromChar c := by
  intro raw ws h hlen
  simp only [processRaw, processRawCfg] at h
  split at h
  · simp at h
    subst h
    simp at hlen
  · split at h
    · simp at h
      subst h
      simp at hlen
    · next hraw _ =>
      cases hgl : raw.getLast? with
      | none =>
        rw [List.getLast?_eq_none_iff] at hgl
        exact absurd hgl hraw
      | some c =>
        rw [hgl] at h
        dsimp only at h
        cases hsp : splitLongWordCfg MAX_CHUNK_CHARS raw with
        | none => rw [hsp] at h; simp at h
        | some chunks =>
          rw [hsp] at h
          simp only [Option.some.injEq] at h
          subst h
          rw [mkWords_length] at hlen
          constructor
          · intro i hi
            rw [mkWords_length] at hi
            rw [mkWords_getElem?]
            cases hci : chunks[i]? with
            | none =>
              rw [List.getElem?_eq_none_iff] at hci
              omega
            | some ch =>
              simp only [Option.map_some']
              rw [if_neg (by omega)]
          · cases hci : chunks[chunks.length - 1]? with
            | none =>
              rw [List.getElem?_eq_none_iff] at hci
              omega
            | some chL =>
              refine ⟨c, ⟨chL, LengthBucket.fromLength ((chL.filter isWordChar).length),
                Punctuation.fromChar c⟩, rfl, ?_, rfl⟩
              rw [List.getLast?_eq_getElem?, mkWords_length, mkWords_getElem?, hci]
              simp

theorem c4_punct_on_last_chunk_witness :
    ([⟨("inter-").toList, .medium, .none⟩, ⟨("-national-").toList, .long, .none⟩,
      ⟨("-ization").toList, .medium, .period⟩] : List Word)[0]?.map Word.followingPunct
      = some Punctuation.none :=
  (c4_punct_on_last_chunk (("internationalization.").toList) _ (by decide) (by decide)).1
    0 (by decide)

/-- Claim C5: the per-paragraph marking step of `tokenize_paragraphs` upgrades
the last word of a non-final paragraph (`p_idx < para_count - 1`) to
`Punctuation::Paragraph` exactly when that word carried
`Punctuation::None` (an existing comma/period is preserved), and leaves
the final paragraph's words untouched. -/
theorem c5_paragraph_upgrade :
    ∀ (pIdx paraCount : Nat) (ws : List Word) (h : ws ≠ []),
      (pIdx < paraCount - 1 →
        markParagraph pIdx paraCount ws
          = ws.dropLast ++ [if (ws.getLast h).followingPunct = Punctuation.none
              then { ws.getLast h with followingPunct := Punctuation.paragraph }
              else ws.getLast h]) ∧
      (¬ pIdx < paraCount - 1 → markParagraph pIdx paraCount ws = ws) := by
  intro pIdx paraCount ws h
  constructor
  · intro hlt
    simp only [markParagraph, List.getLast?_eq_getLast ws h]
    by_cases hp : (ws.getLast h).followingPunct = Punctuation.none
    · simp [hlt, hp]
    · simp [hlt, hp]
  · intro hnl
    simp only [markParagraph, List.getLast?_eq_getLast ws h]
    simp [hnl]
    exact List.dropLast_append_getLast h

theorem c5_paragraph_upgrade_witness :
    markParagraph 0 2 [⟨("paragraph").toList, .long, .none⟩]
      = [⟨("paragraph").toList, .long, .paragraph⟩] ∧
    markParagraph 1 2 [⟨("paragraph").toList, .long, .none⟩]
      = [⟨("paragraph").toList, .long, .none⟩] := by
  constructor
  · have h := (c5_paragraph_upgrade 0 2 [⟨("paragraph").toList, .long, .none⟩]
      (by simp)).1 (by decide)
    simpa using h
  · exact (c5_paragraph_upgrade 1 2 [⟨("paragraph").toList, .long, .none⟩]
      (by simp)).2 (by decide)

/-- Claim C6: evaluation of title extraction on a chapter document whose only
candidate is a non-empty `<title>` text (no `h1`/`h2` anywhere): the
source returns `None` — the scan drops the title text instead of
storing it, despite its own comment saying "Store but keep looking". -/
theorem c6_title_only_doc_eval :
    extractTitle [XmlEvent.start (("title").toList) [], XmlEvent.text (("Foo").toList),
      XmlEvent.endTag (("title").toList), XmlEvent.start (("body").toList) [],
      XmlEvent.start (("p").toList) [], XmlEvent.text (("x").toList),
      XmlEvent.endTag (("p").toList), XmlEvent.endTag (("body").toList)] = none := by
  decide

/-- Claim C7, counterexample: an archive with no `META-INF/container.xml` entry
makes the parse fail with `InvalidStructure("File not found: ...")`, not
with `MissingContainer` (that variant is never constructed). -/
theorem c7_missing_container_counterexample :
    readContainer [] = Except.error (EpubError.invalidStructure
      (("File not found: META-INF/container.xml").toList)) ∧
    readContainer [] ≠ Except.error EpubError.missingContainer := by
  refine ⟨by decide, ?_⟩
  intro h
  have h0 : readContainer [] = Except.error (EpubError.invalidStructure
      (("File not found: META-INF/container.xml").toList)) := by decide
  rw [h0] at h
  simp at h

/-- Claim C7, amended: a missing `META-INF/container.xml` (exact and
case-insensitive lookups both failing) surfaces as
`InvalidStructure("File not found: META-INF/container.xml")`, and a
container whose event stream has no rootfile/full-path yields
`MissingOpf`. -/
theorem c7_container_errors_amended :
    (∀ a : Archive,
      (∀ e ∈ a, e.1 ≠ ("META-INF/container.xml").toList) →
      (∀ e ∈ a, lowerStr e.1 ≠ lowerStr (("META-INF/container.xml").toList)) →
      readContainer a = Except.error (EpubError.invalidStructure
        (("File not found: META-INF/container.xml").toList))) ∧
    (∀ (a : Archive) (evs : Doc),
      readFile a (("META-INF/container.xml").toList) = Except.ok evs →
      findRootfile evs = none →
      readContainer a = Except.error EpubError.missingOpf) := by
  constructor
  · intro a h1 h2
    have hf1 : a.find? (fun e => e.1 = ("META-INF/container.xml").toList) = none := by
      apply List.find?_eq_none.mpr
      intro e he
      simpa using h1 e he
    have hf2 : a.find? (fun e =>
        lowerStr e.1 = lowerStr (("META-INF/container.xml").toList)) = none := by
      apply List.find?_eq_none.mpr
      intro e he
      simpa using h2 e he
    have hmsg : ("File not found: ").toList ++ ("META-INF/container.xml").toList
        = ("File not found: META-INF/container.xml").toList := by decide
    have hread : readFile a (("META-INF/container.xml").toList)
        = Except.error (EpubError.invalidStructure
          (("File not found: ").toList ++ ("META-INF/container.xml").toList)) := by
      simp only [readFile]
      rw [hf1]
      dsimp only
      rw [hf2]
    simp only [readContainer, hread]
    rw [hmsg]
  · intro a evs hok hroot
    simp only [readContainer]
    rw [hok]
    dsimp only
    rw [hroot]

theorem c7_container_errors_amended_witness :
    readContainer [(("a.txt").toList, [])] = Except.error (EpubError.invalidStructure
      (("File not found: META-INF/container.xml").toList)) ∧
    readContainer [(("META-INF/container.xml").toList, [XmlEvent.text (("x").toList)])]
      = Except.error EpubError.missingOpf :=
  ⟨c7_container_errors_amended.1 [(("a.txt").toList, [])] (by decide) (by decide),
   c7_container_errors_amended.2 [(("META-INF/container.xml").toList,
     [XmlEvent.text (("x").toList)])] [XmlEvent.text (("x").toList)] (by decide) (by decide)⟩

/-- Claim C8, counterexample: a container whose only rootfile element carries a
namespace (`opf:rootfile`) with a `full-path` attribute is NOT matched —
the scan compares the full qualified name against `rootfile` — so the
parse fails with `MissingOpf` instead of returning the path. -/
theorem c8_ns_rootfile_counterexample :
    findRootfile [XmlEvent.empty (("opf:rootfile").toList)
        [(("full-path").toList, ("content.opf").toList)]] = none ∧
    readContainer [(("META-INF/container.xml").toList,
      [XmlEvent.empty (("opf:rootfile").toList)
        [(("full-path").toList, ("content.opf").toList)]])]
      = Except.error EpubError.missingOpf := by
  decide

/-- Claim C8, amended: the container scan matches only elements whose
qualified name is exactly `rootfile` (a start or empty element) and
returns that element's `full-path` attribute; an element with any other
qualified name — including a namespace-prefixed `ns:rootfile` — is
skipped. -/
theorem c8_rootfile_exact_name_amended :
    ∀ (evs : Doc) (n : Str) (attrs : List (Str × Str)) (v : Str),
      (lookupAttr (("full-path").toList) attrs = some v →
        findRootfile (XmlEvent.start (("rootfile").toList) attrs :: evs) = some v ∧
        findRootfile (XmlEvent.empty (("rootfile").toList) attrs :: evs) = some v) ∧
      (n ≠ ("rootfile").toList →
        findRootfile (XmlEvent.start n attrs :: evs) = findRootfile evs ∧
        findRootfile (XmlEvent.empty n attrs :: evs) = findRootfile evs) := by
  intro evs n attrs v
  constructor
  · intro hv
    constructor <;>
      · simp only [findRootfile, if_true]
        rw [hv]
  · intro hn
    constructor <;>
      · simp only [findRootfile]
        rw [if_neg hn]

theorem c8_rootfile_exact_name_amended_witness :
    findRootfile [XmlEvent.empty (("rootfile").toList)
      [(("full-path").toList, ("OEBPS/content.opf").toList)]]
      = some (("OEBPS/content.opf").toList) :=
  ((c8_rootfile_exact_name_amended [] (("x").toList)
    [(("full-path").toList, ("OEBPS/content.opf").toList)]
    (("OEBPS/content.opf").toList)).1 (by decide)).2

/-! ## Spine-loop lemmas (C9) -/

theorem readFile_absent {a : Archive} {p : Str}
    (h1 : ∀ e ∈ a, e.1 ≠ p) (h2 : ∀ e ∈ a, lowerStr e.1 ≠ lowerStr p) :
    readFile a p
      = Except.error (EpubError.invalidStructure (("File not found: ").toList ++ p)) := by
  have hf1 : a.find? (fun e => e.1 = p) = none :=
    List.find?_eq_none.mpr (fun e he => by simpa using h1 e he)
  have hf2 : a.find? (fun e => lowerStr e.1 = lowerStr p) = none :=
    List.find?_eq_none.mpr (fun e he => by simpa using h2 e he)
  simp only [readFile]
  rw [hf1]
  dsimp only
  rw [hf2]

theorem entryChapter_skip {a : Archive} {dir : Str} {man : List (Str × Str)}
    {maxChunk j : Nat} {idRef href : Str} {err : EpubError}
    (hman : lookupAssoc man idRef = some href)
    (hread : readFile a (resolvePath dir href) = Except.error err) :
    entryChapter a dir man maxChunk (j, idRef) = some none := by
  simp only [entryChapter]
  rw [hman]
  dsimp only
  rw [hread]

theorem chaptersFromEntries_skip {a : Archive} {dir : Str} {man : List (Str × Str)}
    {maxChunk j : Nat} :
    ∀ entries : List (Nat × Str),
      (∀ y ∈ entries, y.1 = j → entryChapter a dir man maxChunk y = some none) →
      chaptersFromEntries a dir man maxChunk entries
        = chaptersFromEntries a dir man maxChunk
            (entries.filter (fun pr => pr.1 ≠ j)) := by
  intro entries
  induction entries with
  | nil => intro _; rfl
  | cons y tl ih =>
    intro hsk
    have ihtl := ih (fun z hz hzj => hsk z (List.mem_cons_of_mem y hz) hzj)
    by_cases hy : y.1 = j
    · have hy' : entryChapter a dir man maxChunk y = some none :=
        hsk y (List.mem_cons_self y tl) hy
      have hfil : (y :: tl).filter (fun pr => pr.1 ≠ j)
          = tl.filter (fun pr => pr.1 ≠ j) := by
        simp [List.filter_cons, hy]
      rw [hfil, ← ihtl]
      simp only [chaptersFromEntries]
      rw [hy']
      dsimp only
      cases chaptersFromEntries a dir man maxChunk tl <;> rfl
    · have hfil : (y :: tl).filter (fun pr => pr.1 ≠ j)
          = y :: tl.filter (fun pr => pr.1 ≠ j) := by
        simp [List.filter_cons, hy]
      rw [hfil]
      simp only [chaptersFromEntries]
      rw [ihtl]

theorem createChapterCfg_index {maxChunk index : Nat} {title : Str}
    {paragraphs : List Str} {ch : Chapter}
    (h : createChapterCfg maxChunk index title paragraphs = some ch) :
    ch.index = index := by
  simp only [createChapterCfg] at h
  split at h
  · simp at h
  · simp only [Option.some.injEq] at h
    rw [← h]

theorem entryChapter_index {a : Archive} {dir : Str} {man : List (Str × Str)}
    {maxChunk : Nat} {e : Nat × Str} {c : Chapter}
    (h : entryChapter a dir man maxChunk e = some (some c)) : c.index = e.1 := by
  simp only [entryChapter] at h
  split at h
  · simp at h
  · split at h
    · simp at h
    · split at h
      · simp at h
      · split at h
        · simp at h
        · next ch hch =>
          simp only [Option.some.injEq] at h
          subst h
          exact createChapterCfg_index hch

theorem chaptersFromEntries_mem {a : Archive} {dir : Str} {man : List (Str × Str)}
    {maxChunk : Nat} :
    ∀ (entries : List (Nat × Str)) (chs : List Chapter),
      chaptersFromEntries a dir man maxChunk entries = some chs →
      ∀ c ∈ chs, ∃ e ∈ entries, entryChapter a dir man maxChunk e = some (some c) := by
  intro entries
  induction entries with
  | nil =>
    intro chs h c hc
    simp only [chaptersFromEntries, Option.some.injEq] at h
    rw [← h] at hc
    simp at hc
  | cons y tl ih =>
    intro chs h c hc
    simp only [chaptersFromEntries] at h
    cases hy : entryChapter a dir man maxChunk y with
    | none => rw [hy] at h; simp at h
    | some oc =>
      rw [hy] at h
      dsimp only at h
      cases htl : chaptersFromEntries a dir man maxChunk tl with
      | none => rw [htl] at h; simp at h
      | some chs' =>
        rw [htl] at h
        simp only [Option.some.injEq] at h
        cases oc with
        | none =>
          rw [← h] at hc
          obtain ⟨e, he, hee⟩ := ih chs' htl c hc
          exact ⟨e, List.mem_cons_of_mem y he, hee⟩
        | some c0 =>
          rw [← h] at hc
          rcases List.mem_cons.mp hc with rfl | hc'
          · exact ⟨y, List.mem_cons_self y tl, hy⟩
          · obtain ⟨e, he, hee⟩ := ih chs' htl c hc'
            exact ⟨e, List.mem_cons_of_mem y he, hee⟩

/-- Claim C9: when one spine entry's resolved content file is absent from the
archive (exact and case-insensitive lookups both failing), the chapter
loop produces exactly the chapters of the remaining entries — no error
escapes — and every produced chapter's `index` is the zero-based spine
position of the entry it was built from. -/
theorem c9_missing_chapter_resilience :
    ∀ (a : Archive) (dir : Str) (man : List (Str × Str)) (maxChunk : Nat)
      (spine : List Str) (j : Nat) (sj href : Str),
      spine[j]? = some sj →
      lookupAssoc man sj = some href →
      (∀ e ∈ a, e.1 ≠ resolvePath dir href) →
      (∀ e ∈ a, lowerStr e.1 ≠ lowerStr (resolvePath dir href)) →
      buildChapters a dir man maxChunk spine
        = chaptersFromEntries a dir man maxChunk
            (spine.enum.filter (fun pr => pr.1 ≠ j)) ∧
      ∀ chs, buildChapters a dir man maxChunk spine = some chs →
        ∀ c ∈ chs, ∃ idRef, (c.index, idRef) ∈ spine.enum ∧
          entryChapter a dir man maxChunk (c.index, idRef) = some (some c) := by
  intro a dir man maxChunk spine j sj href hj hman habs1 habs2
  have hread := readFile_absent habs1 habs2
  constructor
  · apply chaptersFromEntries_skip
    intro y hy hyj
    have hy2 : y.2 = sj := by
      have := List.mem_enum_iff_getElem?.mp hy
      rw [hyj] at this
      rw [this] at hj
      exact (Option.some.injEq _ _ ▸ hj)
    have : y = (j, sj) := Prod.ext hyj hy2
    rw [this]
    exact entryChapter_skip hman hread
  · intro chs hchs c hc
    obtain ⟨e, he, hee⟩ := chaptersFromEntries_mem spine.enum chs hchs c hc
    have hidx : c.index = e.1 := entryChapter_index hee
    refine ⟨e.2, ?_, ?_⟩
    · rw [hidx]; exact he
    · rw [hidx]; exact hee

theorem c9_missing_chapter_resilience_witness :
    buildChapters [(("c2.xhtml").toList,
        [XmlEvent.start (("body").toList) [], XmlEvent.start (("p").toList) [],
         XmlEvent.text (("Hello world").toList), XmlEvent.endTag (("p").toList),
         XmlEvent.endTag (("body").toList)])]
      [] [(("id1").toList, ("c1.xhtml").toList), (("id2").toList, ("c2.xhtml").toList)]
      13 [("id1").toList, ("id2").toList]
      = chaptersFromEntries [(("c2.xhtml").toList,
          [XmlEvent.start (("body").toList) [], XmlEvent.start (("p").toList) [],
           XmlEvent.text (("Hello world").toList), XmlEvent.endTag (("p").toList),
           XmlEvent.endTag (("body").toList)])]
        [] [(("id1").toList, ("c1.xhtml").toList), (("id2").toList, ("c2.xhtml").toList)]
        13 (([("id1").toList, ("id2").toList] : List Str).enum.filter
              (fun pr => pr.1 ≠ 0)) :=
  (c9_missing_chapter_resilience _ [] _ 13 _ 0 (("id1").toList) (("c1.xhtml").toList)
    (by decide) (by decide) (by decide) (by decide)).1

/-! ## Tokenizer totality on ASCII (C10) -/

theorem splitWhitespaceAux_chars :
    ∀ (s cur t : Str), t ∈ splitWhitespaceAux cur s → ∀ x ∈ t, x ∈ cur ∨ x ∈ s := by
  intro s
  induction s with
  | nil =>
    intro cur t ht x hx
    simp only [splitWhitespaceAux] at ht
    split at ht
    · simp at ht
    · simp at ht
      rw [ht] at hx
      exact Or.inl (List.mem_reverse.mp hx)
  | cons c cs ih =>
    intro cur t ht x hx
    simp only [splitWhitespaceAux] at ht
    split at ht
    · split at ht
      · rcases ih [] t ht x hx with h0 | h0
        · simp at h0
        · exact Or.inr (List.mem_cons_of_mem c h0)
      · rcases List.mem_cons.mp ht with rfl | ht'
        · exact Or.inl (List.mem_reverse.mp hx)
        · rcases ih [] t ht' x hx with h0 | h0
          · simp at h0
          · exact Or.inr (List.mem_cons_of_mem c h0)
    · rcases ih (c :: cur) t ht x hx with h0 | h0
      · rcases List.mem_cons.mp h0 with rfl | h1
        · exact Or.inr (List.mem_cons_self x cs)
        · exact Or.inl h1
      · exact Or.inr (List.mem_cons_of_mem c h0)

theorem splitWhitespace_chars {text t : Str} (ht : t ∈ splitWhitespace text) :
    ∀ x ∈ t, x ∈ text := by
  intro x hx
  rcases splitWhitespaceAux_chars text [] t ht x hx with h0 | h0
  · simp at h0
  · exact h0

theorem pfxStage_ascii_some {clean cleanLower : Str}
    (hascii : ∀ x ∈ clean, x.utf8Size = 1) :
    ∃ out, pfxStage clean cleanLower = some out ∧ ∀ x ∈ out.2.1, x ∈ clean := by
  simp only [pfxStage]
  cases hfind : PREFIXES.find? (fun p =>
      p.isPrefixOf cleanLower && decide (byteLen p + MIN_CHUNK_CHARS < byteLen clean)) with
  | none => exact ⟨([], clean, true), rfl, fun x hx => hx⟩
  | some p =>
    have hpred := List.find?_some hfind
    simp only [Bool.and_eq_true, decide_eq_true_eq] at hpred
    have hlt : byteLen p ≤ clean.length := by
      have := byteLen_ascii hascii
      simp [MIN_CHUNK_CHARS] at hpred
      omega
    dsimp only
    rw [takeBytes_ascii (byteLen p) clean hascii hlt]
    exact ⟨([clean.take (byteLen p) ++ ['-']], clean.drop (byteLen p), false), rfl,
      fun x hx => List.mem_of_mem_drop hx⟩

theorem sfxStage_ascii_some {rem : Str} (hascii : ∀ x ∈ rem, x.utf8Size = 1) :
    ∃ out, sfxStage rem = some out ∧ ∀ x ∈ out.1, x ∈ rem := by
  simp only [sfxStage]
  cases hfind : SUFFIXES.find? (fun s =>
      s.isSuffixOf (lowerStr rem) && decide (byteLen s + MIN_CHUNK_CHARS < byteLen rem)) with
  | none => exact ⟨(rem, none), rfl, fun x hx => hx⟩
  | some s =>
    have hlt : byteLen rem - byteLen s ≤ rem.length := by
      have := byteLen_ascii hascii
      omega
    dsimp only
    rw [takeBytes_ascii (byteLen rem - byteLen s) rem hascii hlt]
    exact ⟨(rem.take (byteLen rem - byteLen s), some ('-' :: rem.drop (byteLen rem - byteLen s))),
      rfl, fun x hx => List.mem_of_mem_take hx⟩

theorem splitLongWordCfg_ascii_isSome {maxChunk : Nat} {w : Str}
    (hmax : 1 ≤ maxChunk) (hascii : ∀ c ∈ w, c.utf8Size = 1) :
    (splitLongWordCfg maxChunk w).isSome := by
  have hasciiClean : ∀ x ∈ w.filter isAlphabetic, x.utf8Size = 1 :=
    fun x hx => hascii x (List.mem_of_mem_filter hx)
  simp only [splitLongWordCfg]
  split
  · simp
  · obtain ⟨out1, hpf, hrem⟩ := @pfxStage_ascii_some (w.filter isAlphabetic)
      (lowerStr (w.filter isAlphabetic)) hasciiClean
    obtain ⟨chunks1, remaining, isFirst⟩ := out1
    rw [hpf]
    dsimp only at hrem ⊢
    have hremAscii : ∀ x ∈ remaining, x.utf8Size = 1 :=
      fun x hx => hasciiClean x (hrem x hx)
    obtain ⟨out2, hsf, hmid⟩ := sfxStage_ascii_some hremAscii
    obtain ⟨middle, sfxChunk⟩ := out2
    rw [hsf]
    dsimp only at hmid ⊢
    have hmidAscii : ∀ x ∈ middle, x.utf8Size = 1 :=
      fun x hx => hremAscii x (hmid x hx)
    have hcm := chunkMiddleAux_ascii_isSome maxChunk middle.length middle hmidAscii le_rfl hmax
    cases hcme : chunkMiddleAux maxChunk middle.length middle with
    | none => rw [hcme] at hcm; simp at hcm
    | some pieces =>
      have hcm2 : chunkMiddle maxChunk middle = some pieces := by
        simpa [chunkMiddle] using hcme
      rw [hcm2]
      dsimp only
      split <;> simp

theorem processRawCfg_ascii_isSome {maxChunk : Nat} {raw : Str}
    (hmax : 1 ≤ maxChunk) (hascii : ∀ c ∈ raw, c.utf8Size = 1) :
    (processRawCfg maxChunk raw).isSome := by
  simp only [processRawCfg]
  split
  · simp
  · split
    · simp
    · have := splitLongWordCfg_ascii_isSome hmax hascii
      cases hsp : splitLongWordCfg maxChunk raw with
      | none => rw [hsp] at this; simp at this
      | some chunks => simp

theorem mapM_option_isSome {α β : Type} (f : α → Option β) :
    ∀ l : List α, (∀ x ∈ l, (f x).isSome) → (l.mapM f).isSome := by
  intro l
  induction l with
  | nil => intro _; rfl
  | cons a tl ih =>
    intro hall
    have ha := hall a (List.mem_cons_self a tl)
    have htl := ih (fun x hx => hall x (List.mem_cons_of_mem a hx))
    cases hfa : f a with
    | none => rw [hfa] at ha; simp at ha
    | some y =>
      cases hm : tl.mapM f with
      | none => rw [hm] at htl; simp at htl
      | some ys =>
        rw [List.mapM_cons, hfa, hm]
        rfl

/-- Claim C10, amended: on input whose characters are all ASCII (one UTF-8
byte each), every byte-range slice taken by the chunker falls on a
character boundary and `tokenize` returns normally.  (On multi-byte
alphabetic input this fails — see the counterexample.) -/
theorem c10_ascii_slicing_total :
    ∀ text : Str, (∀ c ∈ text, c.utf8Size = 1) → (tokenize text).isSome = true := by
  intro text hascii
  simp only [tokenize, tokenizeCfg]
  have hall : ∀ t ∈ splitWhitespace text, (processRawCfg MAX_CHUNK_CHARS t).isSome :=
    fun t ht => processRawCfg_ascii_isSome (by simp [MAX_CHUNK_CHARS])
      (fun c hc => hascii c (splitWhitespace_chars ht c hc))
  have hm := mapM_option_isSome (processRawCfg MAX_CHUNK_CHARS) (splitWhitespace text) hall
  cases hmm : (splitWhitespace text).mapM (processRawCfg MAX_CHUNK_CHARS) with
  | none => rw [hmm] at hm; simp at hm
  | some l => simp

theorem c10_ascii_slicing_total_witness :
    (tokenize (("The quick brown fox jumps over the lazy dog.").toList)).isSome = true :=
  c10_ascii_slicing_total (("The quick brown fox jumps over the lazy dog.").toList)
    (by decide)

/-- Claim C10, counterexample: a token of nine multi-byte alphabetic
characters ('é', two UTF-8 bytes each) drives the middle-chunk slice
`&middle[0..15]` into the middle of a character: `tokenize` panics
(modelled as `none`) instead of returning normally. -/
theorem c10_multibyte_panic_counterexample :
    tokenize (List.replicate 9 'é') = none ∧
    (List.replicate 9 'é').all (fun c => isAlphabetic c) = true := by
  decide
